import Mathlib

/-!
Verification development for an ethereum HD wallet demo.

The repository glue code (restoreHDNode, restoreHDWallet, generateMnemonic,
saveWalletAsJson, decryptWallet, deriveFiveWalletsFromHdNode, signTransaction,
signMyTransaction) is embedded directly from the source.  The wallet engine the
source calls (BIP39 mnemonic codec, BIP32 key tree, keystore codec, transaction
signer) is not part of the repository sources, so it is modelled from the
specification; the cryptographic primitives (SHA-256, HMAC-SHA512, the
password stretching functions, the AES-CTR keystream, keccak, secp256k1
operations, deterministic ECDSA) are treated as capability interfaces, exactly
as the specification prescribes, and are bundled in the `Env` structure below.
Machine bytes are modelled as `Nat` with explicit reduction modulo 256 where
the code computes them; fallible operations return `Except Err`.
-/

set_option maxRecDepth 4000

/-- Accumulator for the big-endian digit expansion. -/
def toDigitsBEAux (b : Nat) : Nat → Nat → List Nat → List Nat
  | 0, _, acc => acc
  | n+1, k, acc => toDigitsBEAux b n (k / b) (k % b :: acc)

/-- Big-endian base-`b` digit expansion of `k`, padded or truncated to exactly
`n` digits (the low `n` digits of `k`). -/
def toDigitsBE (b n k : Nat) : List Nat := toDigitsBEAux b n k []

/-- Value of a big-endian base-`b` digit list. -/
def fromDigits (b : Nat) (l : List Nat) : Nat :=
  l.foldl (fun a d => a * b + d) 0

/-- Concatenation of the images of `f`, in order. -/
def catMap (f : α → List β) : List α → List β
  | [] => []
  | x :: xs => f x ++ catMap f xs

/-- Fuel-driven chunking of a list into consecutive blocks of size `c`. -/
def chunksAux (c : Nat) : Nat → List Nat → List (List Nat)
  | 0, _ => []
  | _+1, [] => []
  | f+1, l => l.take c :: chunksAux c f (l.drop c)

/-- Chunking of a list into consecutive blocks of size `c`. -/
def chunks (c : Nat) (l : List Nat) : List (List Nat) :=
  chunksAux c l.length l

/-- Bytes to bits, most significant bit first, eight bits per byte. -/
def bytesToBits (e : List Nat) : List Nat :=
  catMap (toDigitsBE 2 8) e

/-- Bits (most significant first) to bytes, eight bits per byte. -/
def bitsToBytes (l : List Nat) : List Nat :=
  (chunks 8 l).map (fromDigits 2)

/-- 32-byte big-endian serialization of a scalar. -/
def ser256 (k : Nat) : List Nat := toDigitsBE 256 32 k

/-- 4-byte big-endian serialization of a child index. -/
def ser32 (i : Nat) : List Nat := toDigitsBE 256 4 i

/-- Error taxonomy of the specification, plus the value-parse failure the
signing example can raise and a keystore decoding failure. -/
inductive Err where
  | InvalidEntropyLength
  | InvalidChecksum
  | InvalidWordCount
  | InvalidWord
  | InvalidPathSyntax
  | HardenedDerivationRequiresPrivateKey
  | PathAppliesHardenedToPublicOnlyNode
  | InvalidDerivedKey
  | NoPrivateKey
  | FieldOutOfRange
  | AuthenticationFailed
  | InvalidValue
  | InvalidKeystore
deriving DecidableEq, Repr

/-- Human-readable message for an error, used by the logging catch branch. -/
def errMessage : Err → String
  | .InvalidEntropyLength => "invalid entropy length"
  | .InvalidChecksum => "invalid checksum"
  | .InvalidWordCount => "invalid word count"
  | .InvalidWord => "invalid word"
  | .InvalidPathSyntax => "invalid path syntax"
  | .HardenedDerivationRequiresPrivateKey => "hardened derivation requires private key"
  | .PathAppliesHardenedToPublicOnlyNode => "hardened path on public-only node"
  | .InvalidDerivedKey => "invalid derived key"
  | .NoPrivateKey => "no private key"
  | .FieldOutOfRange => "field out of range"
  | .AuthenticationFailed => "invalid password"
  | .InvalidValue => "invalid decimal value"
  | .InvalidKeystore => "invalid keystore"

/-- Error-propagating map: stops at the first failure, as a thrown exception
aborts the surrounding loop in the source. -/
def mapE (f : α → Except Err β) : List α → Except Err (List β)
  | [] => .ok []
  | x :: xs =>
    match f x with
    | .error e => .error e
    | .ok y =>
      match mapE f xs with
      | .error e => .error e
      | .ok ys => .ok (y :: ys)

/-- Error-propagating left fold: stops at the first failure. -/
def foldE (f : β → α → Except Err β) : β → List α → Except Err β
  | acc, [] => .ok acc
  | acc, x :: xs =>
    match f acc x with
    | .error e => .error e
    | .ok acc2 => foldE f acc2 xs

/-- An ECDSA signature with its recovery metadata. -/
structure Sig where
  r : Nat
  s : Nat
  recoveryBit : Nat
deriving DecidableEq, Repr

/-- The transaction envelope built by the signing example. -/
structure Transaction where
  nonce : Nat
  gasLimit : Nat
  gasPrice : Nat
  recipient : String
  value : Nat
  data : String
deriving DecidableEq, Repr

/-- Modelled from the spec: one node of the BIP32 key tree.  The nodes the
source manipulates always carry a private key; the public key is recomputed
from it on demand. -/
structure HDNode where
  privateKey : Nat
  chainCode : List Nat
  depth : Nat
  childIndex : Nat
  parentFingerprint : List Nat
deriving DecidableEq, Repr

/-- A wallet: a private key plus, when the wallet was built from a mnemonic,
the mnemonic phrase and its derivation path. -/
structure Wallet where
  privateKey : Nat
  mnemonic : Option (String × String)
deriving DecidableEq, Repr

/-- Modelled from the spec: the encrypted-at-rest keystore document, with the
optional vendor extension carrying the encrypted mnemonic and path. -/
structure KeystoreDocument where
  salt : List Nat
  iv : List Nat
  ciphertext : List Nat
  mnemonicCiphertext : Option (List Nat)
  mac : List Nat
deriving DecidableEq, Repr

/-- Modelled from the spec: the audited cryptographic primitives, consumed as
capability interfaces (spec section 1).  The propositional fields record the
output-length contracts of the corresponding primitives, and the wordlist
lookup coherence of the fixed 2048-word list. -/
structure Env where
  sha256 : List Nat → List Nat
  sha256Len : ∀ d, (sha256 d).length = 32
  hmacSHA512 : List Nat → List Nat → List Nat
  stretch : String → String → List Nat
  kdf : String → List Nat → Nat → List Nat
  kdfLen : ∀ pw salt n, (kdf pw salt n).length = n
  keystream : List Nat → List Nat → Nat → List Nat
  keystreamLen : ∀ k iv n, (keystream k iv n).length = n
  keccak : List Nat → List Nat
  keccakLen : ∀ d, (keccak d).length = 32
  pubkeyCompressed : Nat → List Nat
  pubkeyUncompressed : Nat → List Nat
  ecdsaSign : Nat → List Nat → Sig
  toWord : Nat → String
  fromWord : String → Option Nat
  wordCoh : ∀ n, n < 2048 → fromWord (toWord n) = some n
  encodeTx : Transaction → List Nat
  encodeSignedTx : Transaction → Sig → List Nat

/-- The apostrophe character marking a hardened path segment. -/
def hardChar : Char := Char.ofNat 39

/-- Order of the secp256k1 group. -/
def secpOrder : Nat :=
  115792089237316195423570985008687907852837564279074904382605163141518161494337

/-- First hardened child index. -/
def hardenedBound : Nat := 2147483648

/-- Structural single-character splitter (the separators used by the source,
space and slash, are single characters). -/
def splitCharAux (c : Char) : List Char → List Char → List String
  | [], acc => [String.mk acc.reverse]
  | x :: xs, acc =>
    if x = c then String.mk acc.reverse :: splitCharAux c xs []
    else splitCharAux c xs (x :: acc)

/-- Split a string on every occurrence of character `c`. -/
def splitChar (c : Char) (s : String) : List String :=
  splitCharAux c s.toList []

/-- Decimal digit value of a character, if it is a digit. -/
def digitVal (c : Char) : Option Nat :=
  if 48 ≤ c.toNat ∧ c.toNat ≤ 57 then some (c.toNat - 48) else none

/-- Accumulating decimal parser over characters. -/
def parseNatAux : List Char → Nat → Option Nat
  | [], acc => some acc
  | c :: cs, acc =>
    match digitVal c with
    | some d => parseNatAux cs (acc * 10 + d)
    | none => none

/-- Parse a nonempty all-digit character list as a natural number. -/
def parseNat (l : List Char) : Option Nat :=
  match l with
  | [] => none
  | _ :: _ => parseNatAux l 0

/-- Modelled from the spec: BIP39 entropy to mnemonic words.  Appends a
checksum of entropyBits/32 bits taken from the high bits of the SHA-256 hash
of the entropy and maps each 11-bit group to a wordlist entry; entropy length
must be a multiple of 4 bytes in [16,32]. -/
def entropyToMnemonic (env : Env) (entropy : List Nat) : Except Err (List String) :=
  if entropy.length % 4 = 0 ∧ 16 ≤ entropy.length ∧ entropy.length ≤ 32 then
    let bits := bytesToBits entropy ++
      (bytesToBits (env.sha256 entropy)).take (entropy.length * 8 / 32)
    .ok ((chunks 11 bits).map (fun g => env.toWord (fromDigits 2 g)))
  else .error .InvalidEntropyLength

/-- Wordlist lookup of a single mnemonic word. -/
def wordToIndex (env : Env) (w : String) : Except Err Nat :=
  match env.fromWord w with
  | some i => .ok i
  | none => .error .InvalidWord

/-- Repack the word indices of a mnemonic into entropy, verifying the
checksum against the recomputed hash of the candidate entropy. -/
def entropyFromIndices (env : Env) (wordCount : Nat) (idxs : List Nat) :
    Except Err (List Nat) :=
  let bits := catMap (toDigitsBE 2 11) idxs
  let entLen := wordCount * 4 / 3
  let entropy := bitsToBytes (bits.take (entLen * 8))
  if bits.drop (entLen * 8) =
      (bytesToBits (env.sha256 entropy)).take (entLen * 8 / 32) then
    .ok entropy
  else .error .InvalidChecksum

/-- Modelled from the spec: BIP39 mnemonic words back to entropy, rejecting a
bad word count, unknown words, and a checksum mismatch. -/
def mnemonicToEntropy (env : Env) (ws : List String) : Except Err (List Nat) :=
  if ws.length = 12 ∨ ws.length = 15 ∨ ws.length = 18 ∨ ws.length = 21 ∨ ws.length = 24 then
    match mapE (wordToIndex env) ws with
    | .error e => .error e
    | .ok idxs => entropyFromIndices env ws.length idxs
  else .error .InvalidWordCount

/-- Modelled from the spec: the words of a mnemonic phrase. -/
def splitWords (m : String) : List String := splitChar ' ' m

/-- Modelled from the spec: the BIP32 master node of a seed, split from
HMAC-SHA512 with key "Bitcoin seed". -/
def fromSeed (env : Env) (seed : List Nat) : HDNode :=
  let i := env.hmacSHA512 ("Bitcoin seed".toList.map Char.toNat) seed
  { privateKey := fromDigits 256 (i.take 32)
    chainCode := i.drop 32
    depth := 0
    childIndex := 0
    parentFingerprint := [0, 0, 0, 0] }

/-- Modelled from the spec: one BIP32 child derivation step.  Hardened
indices feed the serialized parent private key, other indices the compressed
parent public key; the left HMAC half is added to the parent key modulo the
curve order, the right half becomes the chain code.  Fails with
InvalidDerivedKey when the left half is out of range or the child key is
zero. -/
def deriveChild (env : Env) (parent : HDNode) (index : Nat) : Except Err HDNode :=
  let payload :=
    if hardenedBound ≤ index then 0 :: ser256 parent.privateKey ++ ser32 index
    else env.pubkeyCompressed parent.privateKey ++ ser32 index
  let i := env.hmacSHA512 parent.chainCode payload
  let il := fromDigits 256 (i.take 32)
  let childKey := (il + parent.privateKey) % secpOrder
  if il < secpOrder ∧ childKey ≠ 0 then
    .ok { privateKey := childKey
          chainCode := i.drop 32
          depth := parent.depth + 1
          childIndex := index
          parentFingerprint := (env.sha256 (env.pubkeyCompressed parent.privateKey)).take 4 }
  else .error .InvalidDerivedKey

/-- Fold of child derivation over already-parsed path segments. -/
def derivePathSegs (env : Env) (node : HDNode) (segs : List Nat) : Except Err HDNode :=
  foldE (deriveChild env) node segs

/-- Parse one path component: decimal digits with an optional trailing
apostrophe for a hardened index. -/
def parseComponent (s : String) : Except Err Nat :=
  match s.toList.reverse with
  | [] => .error .InvalidPathSyntax
  | lastC :: restRev =>
    if lastC = hardChar then
      match parseNat restRev.reverse with
      | some n =>
        if n < hardenedBound then .ok (n + hardenedBound)
        else .error .InvalidPathSyntax
      | none => .error .InvalidPathSyntax
    else
      match parseNat s.toList with
      | some n =>
        if n < hardenedBound then .ok n else .error .InvalidPathSyntax
      | none => .error .InvalidPathSyntax

/-- Parse a derivation path string into an absolute-path flag and the list
of child indices, the hardened bit already applied. -/
def parsePath (s : String) : Except Err (Bool × List Nat) :=
  match splitChar '/' s with
  | [] => .error .InvalidPathSyntax
  | c :: cs =>
    if c = "m" then
      match mapE parseComponent cs with
      | .ok segs => .ok (true, segs)
      | .error e => .error e
    else
      match mapE parseComponent (c :: cs) with
      | .ok segs => .ok (false, segs)
      | .error e => .error e

/-- Modelled from the spec: derive a node along a textual path, folding child
derivation left to right over the parsed segments.  An absolute path (leading
"m") is only applicable to a depth-zero root. -/
def derivePath (env : Env) (node : HDNode) (path : String) : Except Err HDNode :=
  match parsePath path with
  | .error e => .error e
  | .ok (isAbsolute, segs) =>
    if isAbsolute ∧ node.depth ≠ 0 then .error .InvalidPathSyntax
    else derivePathSegs env node segs

/-- Modelled from the spec: build the root HD node of a mnemonic phrase,
validating the phrase (word count, wordlist membership, checksum) before
stretching it into a seed. -/
def fromMnemonic (env : Env) (m : String) : Except Err HDNode :=
  match mnemonicToEntropy env (splitWords m) with
  | .error e => .error e
  | .ok _ => .ok (fromSeed env (env.stretch m ""))

/-- Embedded from the source: restore an HD node from existing mnemonic
words. -/
def restoreHDNode (env : Env) (mnemonic : String) : Except Err HDNode :=
  fromMnemonic env mnemonic

/-- The default derivation path used when a wallet is restored from a
mnemonic: m over hardened 44, hardened 60, hardened 0, then 0, 0. -/
def defaultPath : String :=
  String.mk ['m', '/', '4', '4', hardChar, '/', '6', '0', hardChar, '/',
             '0', hardChar, '/', '0', '/', '0']

/-- Embedded from the source: restore a wallet from existing mnemonic words;
the library restores the root node, derives the default path once, and takes
the private key, retaining the mnemonic and path on the wallet. -/
def restoreHDWallet (env : Env) (mnemonic : String) : Except Err Wallet :=
  match fromMnemonic env mnemonic with
  | .error e => .error e
  | .ok root =>
    match derivePath env root defaultPath with
    | .error e => .error e
    | .ok node => .ok { privateKey := node.privateKey, mnemonic := some (mnemonic, defaultPath) }

/-- Embedded from the source: generate a mnemonic from 16 entropy bytes; the
secure random source is passed explicitly as required by the design notes. -/
def generateMnemonic (env : Env) (randomEntropyBytes : List Nat) : Except Err (List String) :=
  entropyToMnemonic env randomEntropyBytes

/-- Modelled from the spec: the address of a key, the last 20 bytes of the
keccak hash of the uncompressed public key without its first byte. -/
def addressOfKey (env : Env) (k : Nat) : List Nat :=
  (env.keccak ((env.pubkeyUncompressed k).drop 1)).drop 12

/-- Embedded from the source: derive five wallets from a mnemonic and a
derivation path prefix, rebuilding the root and deriving prefix/i for each
index i below five, and wrapping each derived private key in a fresh wallet
without mnemonic data. -/
def deriveFiveWalletsFromHdNode (env : Env) (mnemonic : String) (derivationPath : String) :
    Except Err (List Wallet) :=
  mapE (fun i =>
    match fromMnemonic env mnemonic with
    | .error e => .error e
    | .ok root =>
      match derivePath env root (derivationPath ++ "/" ++ toString i) with
      | .error e => .error e
      | .ok nd => .ok { privateKey := nd.privateKey, mnemonic := none })
    (List.range 5)

/-- Pointwise XOR of a data buffer with the CTR keystream of its length; CTR
encryption and decryption are this same operation. -/
def applyCtr (env : Env) (key iv data : List Nat) : List Nat :=
  List.zipWith Nat.xor data (env.keystream key iv data.length)

/-- Length-prefixed byte encoding of a mnemonic phrase and its path for the
vendor extension field. -/
def encodeMnemonicPath (m p : String) : List Nat :=
  m.toList.length :: (m.toList.map Char.toNat ++ p.toList.map Char.toNat)

/-- Decode the vendor extension plaintext back into phrase and path. -/
def decodeMnemonicPath (l : List Nat) : Option (String × String) :=
  match l with
  | [] => none
  | n :: rest =>
    if n ≤ rest.length then
      some (String.mk ((rest.take n).map Char.ofNat),
            String.mk ((rest.drop n).map Char.ofNat))
    else none

/-- Derived vector used to separate the two CTR streams of a document. -/
def ivExt (iv : List Nat) : List Nat := iv ++ [1]

/-- Modelled from the spec: encrypt a wallet into a keystore document.  The
fresh salt and initialization vector come from the external entropy source
and are passed explicitly; a 32-byte key is derived from the password, the
private key (and, when present, the mnemonic and path) is encrypted with the
CTR cipher, and the MAC is the keccak hash of the second half of the derived
key concatenated with the ciphertext. -/
def encryptWallet (env : Env) (w : Wallet) (password : String) (salt iv : List Nat) :
    KeystoreDocument :=
  let dk := env.kdf password salt 32
  let ct := applyCtr env (dk.take 16) iv (ser256 w.privateKey)
  { salt := salt
    iv := iv
    ciphertext := ct
    mnemonicCiphertext := w.mnemonic.map
      (fun mp => applyCtr env (dk.take 16) (ivExt iv) (encodeMnemonicPath mp.1 mp.2))
    mac := env.keccak (dk.drop 16 ++ ct) }

/-- Embedded from the source: save a wallet as an encrypted document under a
password. -/
def saveWalletAsJson (env : Env) (wallet : Wallet) (password : String) (salt iv : List Nat) :
    KeystoreDocument :=
  encryptWallet env wallet password salt iv

/-- The MAC recomputed during decryption: the keccak hash of the second half
of the password-derived key concatenated with the stored ciphertext. -/
def macOf (env : Env) (doc : KeystoreDocument) (password : String) : List Nat :=
  env.keccak ((env.kdf password doc.salt 32).drop 16 ++ doc.ciphertext)

/-- The decryption work performed only after the MAC has been verified,
paired with the number of cipher-keystream invocations it performs. -/
def decryptBody (env : Env) (doc : KeystoreDocument) (password : String) :
    Except Err Wallet × Nat :=
  let dk := env.kdf password doc.salt 32
  let pk := fromDigits 256 (applyCtr env (dk.take 16) doc.iv doc.ciphertext)
  match doc.mnemonicCiphertext with
  | none => (.ok { privateKey := pk, mnemonic := none }, 1)
  | some mc =>
    match decodeMnemonicPath (applyCtr env (dk.take 16) (ivExt doc.iv) mc) with
    | some mp => (.ok { privateKey := pk, mnemonic := some mp }, 2)
    | none => (.error .InvalidKeystore, 2)

/-- Modelled from the spec: keystore decryption, instrumented with a count of
cipher-keystream invocations so that the MAC-before-decrypt ordering is
observable.  The derived key is recomputed from the stored salt and the given
password, the MAC is recomputed and compared before any decryption: on a
mismatch the function returns AuthenticationFailed having used the cipher
zero times. -/
def decryptWalletInstr (env : Env) (doc : KeystoreDocument) (password : String) :
    Except Err Wallet × Nat :=
  if macOf env doc password = doc.mac then decryptBody env doc password
  else (.error .AuthenticationFailed, 0)

/-- Embedded from the source: decrypt a keystore document with a password. -/
def decryptWallet (env : Env) (doc : KeystoreDocument) (password : String) :
    Except Err Wallet :=
  (decryptWalletInstr env doc password).1

/-- Modelled from the spec: parse a decimal ether amount into wei, 18
fractional digits at most. -/
def parseEther (s : String) : Except Err Nat :=
  match splitChar '.' s with
  | [a] =>
    match parseNat a.toList with
    | some x => .ok (x * 10 ^ 18)
    | none => .error .InvalidValue
  | [a, b] =>
    if b.toList.length = 0 ∨ 18 < b.toList.length then .error .InvalidValue
    else
      match parseNat a.toList, parseNat b.toList with
      | some x, some y => .ok (x * 10 ^ 18 + y * 10 ^ (18 - b.toList.length))
      | _, _ => .error .InvalidValue
  | _ => .error .InvalidValue

/-- Embedded from the source: the transaction object built by the signing
example, with hardcoded nonce 0, gas limit 21000, gas price 2000000000 and
empty data, the recipient and the parsed ether value being the only inputs. -/
def buildTransaction (toAddress : String) (value : String) : Except Err Transaction :=
  match parseEther value with
  | .error e => .error e
  | .ok wei =>
    .ok { nonce := 0
          gasLimit := 21000
          gasPrice := 2000000000
          recipient := toAddress
          value := wei
          data := "0x" }

/-- Modelled from the spec: sign a 32-byte digest with the private key of a
node, by the deterministic ECDSA capability. -/
def signDigest (env : Env) (node : HDNode) (digest : List Nat) : Sig :=
  env.ecdsaSign node.privateKey digest

/-- Embedded from the source: build the transaction, hash its canonical
encoding, sign the digest with the wallet key, and serialize the signed
transaction. -/
def signTransaction (env : Env) (wallet : Wallet) (toAddress : String) (value : String) :
    Except Err (List Nat) :=
  match buildTransaction toAddress value with
  | .error e => .error e
  | .ok tx =>
    let digest := env.keccak (env.encodeTx tx)
    .ok (env.encodeSignedTx tx (env.ecdsaSign wallet.privateKey digest))

/-- Embedded from the source: sign a transaction inside a try/catch that
logs either the signed transaction or the error message; the catch branch
absorbs the failure, so the call itself always completes successfully.  The
returned pair is the completion result and the log lines. -/
def signMyTransaction (env : Env) (wallet : Wallet) (toAddress : String) (value : String) :
    Except Err Unit × List String :=
  match signTransaction env wallet toAddress value with
  | .ok _ => (.ok (), ["Signed Transaction:"])
  | .error e => (.ok (), ["Error: " ++ errMessage e])

/-- The mnemonic phrase of the end-to-end scenario. -/
def claimMnemonic : String :=
  "upset fuel enhance depart portion hope core animal innocent will athlete snack"

/-- The derivation path prefix of the end-to-end scenario: m, hardened 44,
hardened 60, hardened 0, 0. -/
def claimPathPrefix : String :=
  String.mk ['m', '/', '4', '4', hardChar, '/', '6', '0', hardChar, '/',
             '0', hardChar, '/', '0']

/-- The words of the scenario mnemonic. -/
def claimWords : List String :=
  ["upset", "fuel", "enhance", "depart", "portion", "hope", "core", "animal",
   "innocent", "will", "athlete", "snack"]

/-- Sum of a byte list, used by the concrete test primitives. -/
def sumL (l : List Nat) : Nat := l.foldl (· + ·) 0

/-- Sum of the character codes of a string. -/
def strSum (s : String) : Nat := sumL (s.toList.map Char.toNat)

/-- A concrete byte stream of length `n` seeded by `seed`. -/
def toyBytes (seed n : Nat) : List Nat :=
  (List.range n).map (fun j => (seed + j) % 256)

/-- Word of index `n` in the concrete test wordlist. -/
def toyToWord (n : Nat) : String := String.mk (List.replicate (n + 1) 'z')

/-- Index of a word in the concrete test wordlist; the twelve scenario words
are assigned index zero. -/
def toyFromWord (s : String) : Option Nat :=
  if s ∈ claimWords then some 0
  else if s.toList ≠ [] ∧ s.toList.all (fun c => c = 'z') ∧ s.toList.length ≤ 2048 then
    some (s.toList.length - 1)
  else none

/-- A concrete instantiation of the capability interfaces, used to exercise
the theorems on closed inputs. -/
def toyEnv : Env where
  sha256 := fun _ => List.replicate 32 0
  sha256Len := fun _ => by simp
  hmacSHA512 := fun k d => toyBytes (sumL k + sumL d + 1) 64
  stretch := fun m p => toyBytes (strSum m + strSum p) 64
  kdf := fun pw salt n => toyBytes (strSum pw + sumL salt) n
  kdfLen := fun _ _ n => by simp [toyBytes]
  keystream := fun k iv n => toyBytes (sumL k + sumL iv + 7) n
  keystreamLen := fun _ _ n => by simp [toyBytes]
  keccak := fun d => toyBytes (sumL d + 3) 32
  keccakLen := fun _ => by simp [toyBytes]
  pubkeyCompressed := fun k => 2 :: toyBytes k 32
  pubkeyUncompressed := fun k => 4 :: toyBytes k 64
  ecdsaSign := fun k d =>
    { r := (k + sumL d) % 65537, s := (k * 31 + sumL d) % 65537, recoveryBit := k % 2 }
  toWord := toyToWord
  fromWord := toyFromWord
  wordCoh := by
    intro n hn
    have hlist : (toyToWord n).toList = List.replicate (n + 1) 'z' := rfl
    have hnotone : ∀ (w : String) (c : Char), c ∈ w.toList → c ≠ 'z' → toyToWord n ≠ w := by
      intro w c hc hne h
      apply hne
      have h2 : List.replicate (n + 1) 'z' = w.toList := by
        have h3 := congrArg String.toList h
        rw [hlist] at h3
        exact h3
      exact List.eq_of_mem_replicate (h2 ▸ hc)
    have hnot : toyToWord n ∉ claimWords := by
      intro hmem
      simp only [claimWords, List.mem_cons, List.not_mem_nil, or_false] at hmem
      rcases hmem with h|h|h|h|h|h|h|h|h|h|h|h
      · exact hnotone _ 'u' (by decide) (by decide) h
      · exact hnotone _ 'f' (by decide) (by decide) h
      · exact hnotone _ 'e' (by decide) (by decide) h
      · exact hnotone _ 'd' (by decide) (by decide) h
      · exact hnotone _ 'p' (by decide) (by decide) h
      · exact hnotone _ 'h' (by decide) (by decide) h
      · exact hnotone _ 'c' (by decide) (by decide) h
      · exact hnotone _ 'a' (by decide) (by decide) h
      · exact hnotone _ 'i' (by decide) (by decide) h
      · exact hnotone _ 'i' (by decide) (by decide) h
      · exact hnotone _ 'a' (by decide) (by decide) h
      · exact hnotone _ 's' (by decide) (by decide) h
    rw [toyFromWord, if_neg hnot, if_pos]
    · simp [toyToWord]
    · refine ⟨by simp [toyToWord], by simp [toyToWord], by simp [toyToWord]; omega⟩
  encodeTx := fun tx =>
    [tx.nonce % 256, tx.gasLimit % 256, tx.gasPrice % 256, tx.value % 256] ++
      tx.recipient.toList.map Char.toNat ++ tx.data.toList.map Char.toNat
  encodeSignedTx := fun tx sg =>
    ([tx.nonce % 256, tx.gasLimit % 256, tx.gasPrice % 256, tx.value % 256] ++
      tx.recipient.toList.map Char.toNat ++ tx.data.toList.map Char.toNat) ++
      [sg.r % 256, sg.s % 256, sg.recoveryBit]

/-- The derivation pipeline the source runs inside its loop: rebuild the root
node from the mnemonic, then derive the given path from it. -/
def restoreAndDerive (env : Env) (mnemonic path : String) : Except Err HDNode :=
  match restoreHDNode env mnemonic with
  | .error e => .error e
  | .ok root => derivePath env root path

/-- The recipient address used by the source test. -/
def claimRecipient : String := "0x933b946c4fec43372c5580096408d25b3c7936c5"

/-- A concrete wallet used to exercise the signing theorems. -/
def probeWallet : Wallet := { privateKey := 7, mnemonic := none }

/-- A concrete depth-zero node used to exercise the path theorems. -/
def probeRoot : HDNode :=
  { privateKey := 5, chainCode := [9], depth := 0, childIndex := 0,
    parentFingerprint := [0, 0, 0, 0] }

theorem toDigitsBEAux_acc (b : Nat) :
    ∀ (n k : Nat) (acc : List Nat), toDigitsBEAux b n k acc = toDigitsBEAux b n k [] ++ acc := by
  intro n
  induction n with
  | zero => intro k acc; rfl
  | succ n ih =>
    intro k acc
    show toDigitsBEAux b n (k / b) (k % b :: acc) = toDigitsBEAux b n (k / b) (k % b :: []) ++ acc
    rw [ih (k / b) (k % b :: acc), ih (k / b) (k % b :: [])]
    simp

theorem toDigitsBE_zero (b k : Nat) : toDigitsBE b 0 k = [] := rfl

theorem toDigitsBE_succ (b n k : Nat) :
    toDigitsBE b (n + 1) k = toDigitsBE b n (k / b) ++ [k % b] := by
  show toDigitsBEAux b n (k / b) (k % b :: []) = toDigitsBEAux b n (k / b) [] ++ [k % b]
  rw [toDigitsBEAux_acc]

theorem length_toDigitsBE (b n k : Nat) : (toDigitsBE b n k).length = n := by
  induction n generalizing k with
  | zero => rfl
  | succ n ih => simp [toDigitsBE_succ, ih]

theorem mem_toDigitsBE_lt (b n k : Nat) (hb : 0 < b) :
    ∀ x ∈ toDigitsBE b n k, x < b := by
  induction n generalizing k with
  | zero => simp [toDigitsBE_zero]
  | succ n ih =>
    intro x hx
    simp only [toDigitsBE_succ, List.mem_append, List.mem_singleton] at hx
    rcases hx with hx | hx
    · exact ih (k / b) x hx
    · subst hx; exact Nat.mod_lt _ hb

theorem fromDigits_append_single (b : Nat) (l : List Nat) (d : Nat) :
    fromDigits b (l ++ [d]) = fromDigits b l * b + d := by
  simp [fromDigits, List.foldl_append]

theorem fromDigits_toDigitsBE (b n k : Nat) :
    fromDigits b (toDigitsBE b n k) = k % b ^ n := by
  induction n generalizing k with
  | zero => simp [toDigitsBE_zero, fromDigits, Nat.mod_one]
  | succ n ih =>
    rw [toDigitsBE_succ, fromDigits_append_single, ih]
    rw [Nat.pow_succ, Nat.mul_comm (b ^ n) b, Nat.mod_mul]
    ring

theorem toDigitsBE_fromDigits (b : Nat) (l : List Nat) (hl : ∀ d ∈ l, d < b) :
    toDigitsBE b l.length (fromDigits b l) = l := by
  induction l using List.reverseRecOn with
  | nil => rfl
  | append_singleton l d ih =>
    have hd : d < b := hl d (by simp)
    have hb : 0 < b := Nat.lt_of_le_of_lt (Nat.zero_le d) hd
    rw [List.length_append, List.length_singleton, fromDigits_append_single, toDigitsBE_succ]
    have hdiv : (fromDigits b l * b + d) / b = fromDigits b l := by
      rw [Nat.mul_comm (fromDigits b l) b, Nat.mul_add_div hb, Nat.div_eq_of_lt hd, Nat.add_zero]
    have hmod : (fromDigits b l * b + d) % b = d := by
      rw [Nat.mul_comm (fromDigits b l) b, Nat.mul_add_mod, Nat.mod_eq_of_lt hd]
    rw [hdiv, hmod, ih (fun x hx => hl x (by simp [hx]))]

theorem foldl_digits_lt (b : Nat) (l : List Nat) (a : Nat) (hl : ∀ d ∈ l, d < b) :
    l.foldl (fun a d => a * b + d) a < (a + 1) * b ^ l.length := by
  induction l generalizing a with
  | nil => simp
  | cons d l ih =>
    have hd : d < b := hl d (by simp)
    have h1 : l.foldl (fun a d => a * b + d) (a * b + d) < (a * b + d + 1) * b ^ l.length :=
      ih (a * b + d) (fun x hx => hl x (by simp [hx]))
    have h2 : (a * b + d + 1) * b ^ l.length ≤ (a + 1) * b ^ (l.length + 1) := by
      have : a * b + d + 1 ≤ (a + 1) * b := by
        have : d + 1 ≤ b := hd
        calc a * b + d + 1 = a * b + (d + 1) := by omega
          _ ≤ a * b + b := by omega
          _ = (a + 1) * b := by ring
      calc (a * b + d + 1) * b ^ l.length ≤ ((a + 1) * b) * b ^ l.length :=
            Nat.mul_le_mul_right _ this
        _ = (a + 1) * b ^ (l.length + 1) := by ring
    simpa [List.foldl_cons, List.length_cons] using Nat.lt_of_lt_of_le h1 h2

theorem fromDigits_lt (b : Nat) (l : List Nat) (hl : ∀ d ∈ l, d < b) :
    fromDigits b l < b ^ l.length := by
  have h := foldl_digits_lt b l 0 hl
  simpa [fromDigits] using h

theorem catMap_append (f : α → List β) (l1 l2 : List α) :
    catMap f (l1 ++ l2) = catMap f l1 ++ catMap f l2 := by
  induction l1 with
  | nil => rfl
  | cons x xs ih => simp [catMap, ih]

theorem length_catMap_const (f : α → List β) (c : Nat) (l : List α)
    (hf : ∀ x ∈ l, (f x).length = c) : (catMap f l).length = c * l.length := by
  induction l with
  | nil => simp [catMap]
  | cons x xs ih =>
    have h1 : (f x).length = c := hf x (by simp)
    have h2 : (catMap f xs).length = c * xs.length := ih (fun y hy => hf y (by simp [hy]))
    simp [catMap, h1, h2, Nat.mul_succ, Nat.mul_add]
    ring

theorem mem_catMap (f : α → List β) (l : List α) (y : β) :
    y ∈ catMap f l → ∃ x ∈ l, y ∈ f x := by
  induction l with
  | nil => simp [catMap]
  | cons x xs ih =>
    intro hy
    simp only [catMap, List.mem_append] at hy
    rcases hy with hy | hy
    · exact ⟨x, by simp, hy⟩
    · obtain ⟨x2, hx2, hyx2⟩ := ih hy
      exact ⟨x2, by simp [hx2], hyx2⟩

theorem chunksAux_catMap_const (c : Nat) (hc : 0 < c) (g : α → List Nat)
    (hg : ∀ x, (g x).length = c) (l : List α) :
    ∀ f, l.length ≤ f → chunksAux c f (catMap g l) = l.map g := by
  induction l with
  | nil =>
    intro f _
    cases f <;> rfl
  | cons x xs ih =>
    intro f hf
    match f, hf with
    | f + 1, hf =>
      have hne : catMap g (x :: xs) ≠ [] := by
        simp only [catMap]
        intro h
        have := congrArg List.length h
        simp [hg x] at this
        omega
      have hx : (g x ++ catMap g xs).take c = g x := List.take_left' (hg x)
      have hd : (g x ++ catMap g xs).drop c = catMap g xs := List.drop_left' (hg x)
      match hcm : catMap g (x :: xs), hne with
      | y :: ys, _ =>
        rw [show chunksAux c (f + 1) (y :: ys) =
          (y :: ys).take c :: chunksAux c f ((y :: ys).drop c) from rfl]
        rw [← hcm]
        show (catMap g (x :: xs)).take c :: chunksAux c f ((catMap g (x :: xs)).drop c) =
          (x :: xs).map g
        rw [show catMap g (x :: xs) = g x ++ catMap g xs from rfl, hx, hd,
          ih f (by simpa using Nat.le_of_succ_le_succ hf)]
        rfl

theorem catMap_id_chunksAux (c : Nat) (hc : 0 < c) :
    ∀ (f : Nat) (l : List Nat), l.length ≤ f → catMap (fun x => x) (chunksAux c f l) = l := by
  intro f
  induction f with
  | zero =>
    intro l hl
    have : l = [] := List.length_eq_zero.mp (Nat.le_zero.mp hl)
    subst this
    rfl
  | succ f ih =>
    intro l hl
    match l with
    | [] => rfl
    | x :: xs =>
      have hl2 : xs.length + 1 ≤ f + 1 := by simpa using hl
      show (x :: xs).take c ++ catMap (fun x => x) (chunksAux c f ((x :: xs).drop c)) = x :: xs
      rw [ih ((x :: xs).drop c) (by simp [List.length_drop]; omega)]
      exact List.take_append_drop c (x :: xs)

theorem length_chunksAux (c : Nat) (hc : 0 < c) :
    ∀ (f : Nat) (l : List Nat), c ∣ l.length → l.length ≤ f →
      (chunksAux c f l).length = l.length / c := by
  intro f
  induction f with
  | zero =>
    intro l hdvd hl
    have : l = [] := List.length_eq_zero.mp (Nat.le_zero.mp hl)
    subst this
    simp [chunksAux]
  | succ f ih =>
    intro l hdvd hl
    match l with
    | [] => simp [chunksAux]
    | x :: xs =>
      have hlen : (x :: xs).length = xs.length + 1 := rfl
      have hge : c ≤ (x :: xs).length := Nat.le_of_dvd (by simp) hdvd
      have hdl : ((x :: xs).drop c).length = (x :: xs).length - c := by simp
      show ((x :: xs).take c :: chunksAux c f ((x :: xs).drop c)).length = (x :: xs).length / c
      rw [List.length_cons, ih ((x :: xs).drop c)
        (by rw [hdl]; exact (Nat.dvd_sub' hdvd (Nat.dvd_refl c)))
        (by rw [hdl]; simp at hl ⊢; omega)]
      rw [hdl]
      obtain ⟨q, hq⟩ := hdvd
      rcases q with _ | k
      · exfalso
        rw [hq] at hge
        simp at hge
        omega
      · have h1 : (x :: xs).length - c = c * k := by rw [hq, Nat.mul_succ]; omega
        have h2 : c * k / c = k := Nat.mul_div_cancel_left k hc
        have h3 : c * (k + 1) / c = k + 1 := Nat.mul_div_cancel_left (k + 1) hc
        rw [h1, h2, hq, h3]

theorem length_mem_chunksAux (c : Nat) (hc : 0 < c) :
    ∀ (f : Nat) (l : List Nat), c ∣ l.length → l.length ≤ f →
      ∀ ch ∈ chunksAux c f l, ch.length = c := by
  intro f
  induction f with
  | zero =>
    intro l hdvd hl ch hch
    have : l = [] := List.length_eq_zero.mp (Nat.le_zero.mp hl)
    subst this
    simp [chunksAux] at hch
  | succ f ih =>
    intro l hdvd hl ch hch
    match l with
    | [] => simp [chunksAux] at hch
    | x :: xs =>
      have hge : c ≤ (x :: xs).length := Nat.le_of_dvd (by simp) hdvd
      have hch2 : ch = (x :: xs).take c ∨ ch ∈ chunksAux c f ((x :: xs).drop c) := by
        simpa [chunksAux] using hch
      rcases hch2 with h | h
      · subst h
        have hge2 : c ≤ xs.length + 1 := by simpa using hge
        simp [List.length_take]
        omega
      · have hdl : ((x :: xs).drop c).length = (x :: xs).length - c := by simp
        refine ih ((x :: xs).drop c) ?_ ?_ ch h
        · rw [hdl]; exact Nat.dvd_sub' hdvd (Nat.dvd_refl c)
        · rw [hdl]; simp at hl ⊢; omega

theorem mem_of_mem_chunksAux (c : Nat) :
    ∀ (f : Nat) (l : List Nat) (ch : List Nat), ch ∈ chunksAux c f l →
      ∀ x ∈ ch, x ∈ l := by
  intro f
  induction f with
  | zero => intro l ch hch; simp [chunksAux] at hch
  | succ f ih =>
    intro l ch hch x hx
    match l with
    | [] => simp [chunksAux] at hch
    | y :: ys =>
      have hch2 : ch = (y :: ys).take c ∨ ch ∈ chunksAux c f ((y :: ys).drop c) := by
        simpa [chunksAux] using hch
      rcases hch2 with h | h
      · exact List.mem_of_mem_take (h ▸ hx)
      · exact List.mem_of_mem_drop (ih ((y :: ys).drop c) ch h x hx)

theorem mapE_ok_length (f : α → Except Err β) :
    ∀ (l : List α) (r : List β), mapE f l = .ok r → r.length = l.length := by
  intro l
  induction l with
  | nil =>
    intro r h
    simp [mapE] at h
    simp [← h]
  | cons x xs ih =>
    intro r h
    simp only [mapE] at h
    match hx : f x with
    | .error e => rw [hx] at h; exact absurd h (by simp)
    | .ok y =>
      rw [hx] at h
      match hxs : mapE f xs with
      | .error e => rw [hxs] at h; exact absurd h (by simp)
      | .ok ys =>
        rw [hxs] at h
        have : y :: ys = r := by simpa using h
        subst this
        simp [ih ys hxs]

theorem mapE_map_ok (f : α → Except Err β) (g : γ → α) (l : List γ)
    (h : ∀ x ∈ l, ∃ y, f (g x) = .ok y) :
    ∃ r, mapE f (l.map g) = .ok r := by
  induction l with
  | nil => exact ⟨[], rfl⟩
  | cons x xs ih =>
    obtain ⟨y, hy⟩ := h x (by simp)
    obtain ⟨r, hr⟩ := ih (fun z hz => h z (by simp [hz]))
    exact ⟨y :: r, by simp [mapE, hy, hr]⟩

theorem foldE_append (f : β → α → Except Err β) (acc : β) (l1 l2 : List α) :
    foldE f acc (l1 ++ l2) =
      match foldE f acc l1 with
      | .error e => .error e
      | .ok acc2 => foldE f acc2 l2 := by
  induction l1 generalizing acc with
  | nil => simp [foldE]
  | cons x xs ih =>
    show foldE f acc (x :: (xs ++ l2)) = _
    simp only [foldE]
    match f acc x with
    | .error e => rfl
    | .ok acc2 => exact ih acc2

theorem zipWith_xor_cancel :
    ∀ (d ks : List Nat), d.length ≤ ks.length →
      List.zipWith Nat.xor (List.zipWith Nat.xor d ks) ks = d := by
  intro d
  induction d with
  | nil => intro ks _; simp
  | cons x xs ih =>
    intro ks hlen
    match ks with
    | [] => simp at hlen
    | k :: ks2 =>
      simp only [List.zipWith_cons_cons]
      have hx : Nat.xor (Nat.xor x k) k = x := Nat.xor_cancel_right k x
      rw [hx, ih ks2 (by simpa using hlen)]

theorem toList_mk (l : List Char) : (String.mk l).toList = l := rfl

theorem mk_toList (s : String) : String.mk s.toList = s := by
  cases s
  rfl

theorem length_applyCtr (env : Env) (key iv d : List Nat) :
    (applyCtr env key iv d).length = d.length := by
  simp [applyCtr, List.length_zipWith, env.keystreamLen]

theorem applyCtr_involution (env : Env) (key iv d : List Nat) :
    applyCtr env key iv (applyCtr env key iv d) = d := by
  have h1 : (applyCtr env key iv d).length = d.length := length_applyCtr env key iv d
  show List.zipWith Nat.xor (applyCtr env key iv d)
    (env.keystream key iv (applyCtr env key iv d).length) = d
  rw [h1]
  exact zipWith_xor_cancel d (env.keystream key iv d.length)
    (by rw [env.keystreamLen])

theorem decode_encode_mnemonicPath (m p : String) :
    decodeMnemonicPath (encodeMnemonicPath m p) = some (m, p) := by
  have hlen : (m.toList.map Char.toNat).length = m.toList.length := List.length_map _ _
  have hle : m.toList.length ≤ (m.toList.map Char.toNat ++ p.toList.map Char.toNat).length := by
    simp
  have step : decodeMnemonicPath (encodeMnemonicPath m p) =
      if m.toList.length ≤ (m.toList.map Char.toNat ++ p.toList.map Char.toNat).length then
        some (String.mk (((m.toList.map Char.toNat ++ p.toList.map Char.toNat).take
                m.toList.length).map Char.ofNat),
              String.mk (((m.toList.map Char.toNat ++ p.toList.map Char.toNat).drop
                m.toList.length).map Char.ofNat))
      else none := rfl
  rw [step, if_pos hle]
  have htake : (m.toList.map Char.toNat ++ p.toList.map Char.toNat).take m.toList.length =
      m.toList.map Char.toNat := List.take_left' hlen
  have hdrop : (m.toList.map Char.toNat ++ p.toList.map Char.toNat).drop m.toList.length =
      p.toList.map Char.toNat := List.drop_left' hlen
  rw [htake, hdrop]
  have hm : (m.toList.map Char.toNat).map Char.ofNat = m.toList := by
    rw [List.map_map]
    simp [Function.comp_def]
  have hp : (p.toList.map Char.toNat).map Char.ofNat = p.toList := by
    rw [List.map_map]
    simp [Function.comp_def]
  rw [hm, hp, mk_toList, mk_toList]

theorem length_bytesToBits (e : List Nat) : (bytesToBits e).length = 8 * e.length :=
  length_catMap_const _ 8 e (fun x _ => length_toDigitsBE 2 8 x)

theorem bytesToBits_lt_two (e : List Nat) : ∀ x ∈ bytesToBits e, x < 2 := by
  intro x hx
  obtain ⟨y, _, hxy⟩ := mem_catMap _ e x hx
  exact mem_toDigitsBE_lt 2 8 y (by omega) x hxy

theorem bitsToBytes_bytesToBits (e : List Nat) (he : ∀ b ∈ e, b < 256) :
    bitsToBytes (bytesToBits e) = e := by
  unfold bitsToBytes chunks
  rw [length_bytesToBits]
  rw [show bytesToBits e = catMap (toDigitsBE 2 8) e from rfl]
  rw [chunksAux_catMap_const 8 (by omega) (toDigitsBE 2 8) (fun x => length_toDigitsBE 2 8 x) e
    (8 * e.length) (by omega)]
  rw [List.map_map]
  have : ∀ b ∈ e, (fromDigits 2 ∘ toDigitsBE 2 8) b = b := by
    intro b hb
    show fromDigits 2 (toDigitsBE 2 8 b) = b
    rw [fromDigits_toDigitsBE]
    exact Nat.mod_eq_of_lt (by have := he b hb; norm_num; omega)
  calc e.map (fromDigits 2 ∘ toDigitsBE 2 8) = e.map id := List.map_congr_left this
    _ = e := List.map_id e

theorem fromDigits_ser256 (k : Nat) (hk : k < 256 ^ 32) :
    fromDigits 256 (ser256 k) = k := by
  rw [ser256, fromDigits_toDigitsBE]
  exact Nat.mod_eq_of_lt hk

theorem catMap_congr (f g : α → List β) (l : List α) (h : ∀ x ∈ l, f x = g x) :
    catMap f l = catMap g l := by
  induction l with
  | nil => rfl
  | cons x xs ih =>
    simp only [catMap]
    rw [h x (by simp), ih (fun y hy => h y (by simp [hy]))]

theorem catMap_map (f : β → List γ) (g : α → β) (l : List α) :
    catMap f (l.map g) = catMap (fun x => f (g x)) l := by
  induction l with
  | nil => rfl
  | cons x xs ih => simp only [List.map_cons, catMap, ih]

theorem mapE_wordToIndex (env : Env) (L : List (List Nat))
    (h : ∀ ch ∈ L, fromDigits 2 ch < 2048) :
    mapE (wordToIndex env) (L.map (fun ch => env.toWord (fromDigits 2 ch))) =
      .ok (L.map (fromDigits 2)) := by
  induction L with
  | nil => rfl
  | cons ch chs ih =>
    have hch : fromDigits 2 ch < 2048 := h ch (by simp)
    have hw : wordToIndex env (env.toWord (fromDigits 2 ch)) = .ok (fromDigits 2 ch) := by
      rw [wordToIndex, env.wordCoh _ hch]
    simp only [List.map_cons, mapE, hw, ih (fun x hx => h x (by simp [hx]))]

theorem derivePathSegs_snoc (env : Env) (node : HDNode) (segs : List Nat) (i : Nat) :
    derivePathSegs env node (segs ++ [i]) =
      match derivePathSegs env node segs with
      | .error e => .error e
      | .ok mid => deriveChild env mid i := by
  simp only [derivePathSegs]
  rw [foldE_append]
  rcases hfold : foldE (deriveChild env) node segs with e | mid
  · rfl
  · show foldE (deriveChild env) mid [i] = deriveChild env mid i
    simp only [foldE]
    rcases deriveChild env mid i with e2 | x <;> rfl

/-- Claim C9: the transaction object constructed by the signing example has
hardcoded nonce 0, gas limit 21000, gas price 2000000000 and empty data,
independent of the caller; only the recipient and the parsed ether value
vary with the arguments. -/
theorem signTransaction_hardcodes_envelope :
    ∀ (toAddress value : String) (tx : Transaction),
      buildTransaction toAddress value = .ok tx →
      tx.nonce = 0 ∧ tx.gasLimit = 21000 ∧ tx.gasPrice = 2000000000 ∧
      tx.data = "0x" ∧ tx.recipient = toAddress ∧ parseEther value = .ok tx.value := by
  intro toAddress value tx h
  rw [buildTransaction] at h
  rcases hp : parseEther value with e | wei
  · rw [hp] at h
    exact absurd h (by simp)
  · rw [hp] at h
    have htx : ({ nonce := 0, gasLimit := 21000, gasPrice := 2000000000,
                  recipient := toAddress, value := wei, data := "0x" } : Transaction) = tx := by
      simpa using h
    subst htx
    exact ⟨rfl, rfl, rfl, rfl, rfl, rfl⟩

/-- Witness for C9 at the recipient and value of the source test. -/
theorem signTransaction_hardcodes_envelope_witness :
    ({ nonce := 0, gasLimit := 21000, gasPrice := 2000000000, recipient := claimRecipient,
       value := 1000000000000000000, data := "0x" } : Transaction).nonce = 0 ∧
    ({ nonce := 0, gasLimit := 21000, gasPrice := 2000000000, recipient := claimRecipient,
       value := 1000000000000000000, data := "0x" } : Transaction).gasLimit = 21000 ∧
    ({ nonce := 0, gasLimit := 21000, gasPrice := 2000000000, recipient := claimRecipient,
       value := 1000000000000000000, data := "0x" } : Transaction).gasPrice = 2000000000 ∧
    ({ nonce := 0, gasLimit := 21000, gasPrice := 2000000000, recipient := claimRecipient,
       value := 1000000000000000000, data := "0x" } : Transaction).data = "0x" ∧
    ({ nonce := 0, gasLimit := 21000, gasPrice := 2000000000, recipient := claimRecipient,
       value := 1000000000000000000, data := "0x" } : Transaction).recipient = claimRecipient ∧
    parseEther "1.0" =
      .ok ({ nonce := 0, gasLimit := 21000, gasPrice := 2000000000, recipient := claimRecipient,
             value := 1000000000000000000, data := "0x" } : Transaction).value :=
  signTransaction_hardcodes_envelope claimRecipient "1.0" _ rfl

/-- Claim C6: the deterministic ECDSA capability gives bit-identical
signatures on two evaluations at the same node and digest, and two calls of
the transaction signer with the same wallet, recipient and value produce
identical signed bytes. -/
theorem signing_deterministic :
    ∀ (env : Env),
      (∀ (node : HDNode) (digest : List Nat) (s1 s2 : Sig),
        signDigest env node digest = s1 → signDigest env node digest = s2 → s1 = s2) ∧
      (∀ (w : Wallet) (toAddress value : String) (b1 b2 : List Nat),
        signTransaction env w toAddress value = .ok b1 →
        signTransaction env w toAddress value = .ok b2 → b1 = b2) := by
  intro env
  constructor
  · intro node digest s1 s2 h1 h2
    rw [← h1, ← h2]
  · intro w t v b1 b2 h1 h2
    exact Except.ok.inj (h1.symm.trans h2)

/-- Witness for C6: a concrete signing run under the concrete environment. -/
theorem signing_deterministic_witness :
    signTransaction toyEnv probeWallet claimRecipient "1.0" =
      .ok [0, 8, 0, 0, 48, 120, 57, 51, 51, 98, 57, 52, 54, 99, 52, 102, 101, 99,
           52, 51, 51, 55, 50, 99, 53, 53, 56, 48, 48, 57, 54, 52, 48, 56, 100,
           50, 53, 98, 51, 99, 55, 57, 51, 54, 99, 53, 48, 120, 87, 41, 1] ∧
    ([0, 8, 0, 0, 48, 120, 57, 51, 51, 98, 57, 52, 54, 99, 52, 102, 101, 99,
      52, 51, 51, 55, 50, 99, 53, 53, 56, 48, 48, 57, 54, 52, 48, 56, 100,
      50, 53, 98, 51, 99, 55, 57, 51, 54, 99, 53, 48, 120, 87, 41, 1] : List Nat) =
      [0, 8, 0, 0, 48, 120, 57, 51, 51, 98, 57, 52, 54, 99, 52, 102, 101, 99,
       52, 51, 51, 55, 50, 99, 53, 53, 56, 48, 48, 57, 54, 52, 48, 56, 100,
       50, 53, 98, 51, 99, 55, 57, 51, 54, 99, 53, 48, 120, 87, 41, 1] := by
  have h : signTransaction toyEnv probeWallet claimRecipient "1.0" =
      .ok [0, 8, 0, 0, 48, 120, 57, 51, 51, 98, 57, 52, 54, 99, 52, 102, 101, 99,
           52, 51, 51, 55, 50, 99, 53, 53, 56, 48, 48, 57, 54, 52, 48, 56, 100,
           50, 53, 98, 51, 99, 55, 57, 51, 54, 99, 53, 48, 120, 87, 41, 1] := rfl
  exact ⟨h, (signing_deterministic toyEnv).2 probeWallet claimRecipient "1.0" _ _ h h⟩

/-- Claim C4: the derivation pipeline is a pure function of the mnemonic and
path; two evaluations that both succeed agree bit for bit on the private
key, the public key and the chain code. -/
theorem derivation_deterministic :
    ∀ (env : Env) (m p : String) (n1 n2 : HDNode),
      restoreAndDerive env m p = .ok n1 → restoreAndDerive env m p = .ok n2 →
      n1.privateKey = n2.privateKey ∧
      env.pubkeyCompressed n1.privateKey = env.pubkeyCompressed n2.privateKey ∧
      n1.chainCode = n2.chainCode := by
  intro env m p n1 n2 h1 h2
  have h := Except.ok.inj (h1.symm.trans h2)
  subst h
  exact ⟨rfl, rfl, rfl⟩

/-- Witness for C4 at the scenario mnemonic and path prefix. -/
theorem derivation_deterministic_witness :
    restoreAndDerive toyEnv claimMnemonic claimPathPrefix =
      .ok { privateKey :=
              77203629817513935449272126951967154864047207757756951542906270255591721909441,
            chainCode := [195, 196, 197, 198, 199, 200, 201, 202, 203, 204, 205, 206,
                          207, 208, 209, 210, 211, 212, 213, 214, 215, 216, 217, 218,
                          219, 220, 221, 222, 223, 224, 225, 226],
            depth := 4, childIndex := 0, parentFingerprint := [0, 0, 0, 0] } ∧
    (77203629817513935449272126951967154864047207757756951542906270255591721909441 : Nat) =
      77203629817513935449272126951967154864047207757756951542906270255591721909441 := by
  have h : restoreAndDerive toyEnv claimMnemonic claimPathPrefix =
      .ok { privateKey :=
              77203629817513935449272126951967154864047207757756951542906270255591721909441,
            chainCode := [195, 196, 197, 198, 199, 200, 201, 202, 203, 204, 205, 206,
                          207, 208, 209, 210, 211, 212, 213, 214, 215, 216, 217, 218,
                          219, 220, 221, 222, 223, 224, 225, 226],
            depth := 4, childIndex := 0, parentFingerprint := [0, 0, 0, 0] } := rfl
  exact ⟨h, (derivation_deterministic toyEnv claimMnemonic claimPathPrefix _ _ h h).1⟩

/-- Counterexample for C8: at a malformed ether value the inner signing call
fails, yet the catching wrapper completes successfully, so the failure does
not propagate out of it. -/
theorem signMyTransaction_absorbs_error_cex :
    signTransaction toyEnv probeWallet claimRecipient "abc" = .error .InvalidValue ∧
    signMyTransaction toyEnv probeWallet claimRecipient "abc" =
      (.ok (), ["Error: invalid decimal value"]) :=
  ⟨rfl, rfl⟩

theorem mapE_cons_error (f : α → Except Err β) (x : α) (xs : List α) (e : Err)
    (h : f x = .error e) : mapE f (x :: xs) = .error e := by
  simp only [mapE]
  rw [h]

/-- Claim C8 as amended: failures in mnemonic validation, derivation and
keystore decryption propagate to the caller of the public operation in which
they arose (a validation failure out of fromMnemonic; a path-derivation
failure out of restoreHDWallet and out of the five-wallet loop; a MAC
failure out of decryptWallet), and the transaction signer propagates a
failure arising inside it; but the catching wrapper absorbs any signing
error, logs its message, and completes successfully. -/
theorem error_propagation_amended :
    ∀ (env : Env),
      (∀ (m : String) (e : Err), mnemonicToEntropy env (splitWords m) = .error e →
        fromMnemonic env m = .error e) ∧
      (∀ (m : String) (root : HDNode) (e : Err),
        fromMnemonic env m = .ok root → derivePath env root defaultPath = .error e →
        restoreHDWallet env m = .error e) ∧
      (∀ (m p : String) (root : HDNode) (e : Err),
        fromMnemonic env m = .ok root →
        derivePath env root (p ++ "/" ++ toString 0) = .error e →
        deriveFiveWalletsFromHdNode env m p = .error e) ∧
      (∀ (doc : KeystoreDocument) (pw : String),
        macOf env doc pw ≠ doc.mac →
        decryptWallet env doc pw = .error .AuthenticationFailed) ∧
      (∀ (w : Wallet) (t v : String) (e : Err), buildTransaction t v = .error e →
        signTransaction env w t v = .error e) ∧
      (∀ (w : Wallet) (t v : String) (e : Err), signTransaction env w t v = .error e →
        signMyTransaction env w t v = (.ok (), ["Error: " ++ errMessage e])) := by
  intro env
  refine ⟨?_, ?_, ?_, ?_, ?_, ?_⟩
  · intro m e h
    rw [fromMnemonic, h]
  · intro m root e hroot hder
    simp only [restoreHDWallet, hroot, hder]
  · intro m p root e hroot hder
    rw [deriveFiveWalletsFromHdNode, show List.range 5 = 0 :: [1, 2, 3, 4] from rfl]
    refine mapE_cons_error _ 0 [1, 2, 3, 4] e ?_
    simp only [hroot, hder]
  · intro doc pw h
    rw [decryptWallet, decryptWalletInstr, if_neg h]
  · intro w t v e h
    rw [signTransaction, h]
  · intro w t v e h
    rw [signMyTransaction, h]

/-- Witness for C8: a concrete derivation failure propagating out of the
five-wallet loop, a concrete signing failure propagating out of
signTransaction, and the same failure being absorbed and logged by the
catching wrapper. -/
theorem error_propagation_amended_witness :
    deriveFiveWalletsFromHdNode toyEnv claimMnemonic "x" = .error .InvalidPathSyntax ∧
    signTransaction toyEnv probeWallet claimRecipient "abc" = .error .InvalidValue ∧
    signMyTransaction toyEnv probeWallet claimRecipient "abc" =
      (.ok (), ["Error: " ++ errMessage .InvalidValue]) := by
  have hroot : fromMnemonic toyEnv claimMnemonic =
      .ok { privateKey :=
              106258050855515489382851276377599633210495551787519231339943037153297836738569,
            chainCode := [10, 11, 12, 13, 14, 15, 16, 17, 18, 19, 20, 21, 22, 23, 24, 25,
                          26, 27, 28, 29, 30, 31, 32, 33, 34, 35, 36, 37, 38, 39, 40, 41],
            depth := 0, childIndex := 0, parentFingerprint := [0, 0, 0, 0] } := rfl
  have hder : derivePath toyEnv
      { privateKey :=
          106258050855515489382851276377599633210495551787519231339943037153297836738569,
        chainCode := [10, 11, 12, 13, 14, 15, 16, 17, 18, 19, 20, 21, 22, 23, 24, 25,
                      26, 27, 28, 29, 30, 31, 32, 33, 34, 35, 36, 37, 38, 39, 40, 41],
        depth := 0, childIndex := 0, parentFingerprint := [0, 0, 0, 0] }
      ("x" ++ "/" ++ toString 0) = .error .InvalidPathSyntax := rfl
  have hbuild : buildTransaction claimRecipient "abc" = .error .InvalidValue := rfl
  have hsign := (error_propagation_amended toyEnv).2.2.2.2.1 probeWallet claimRecipient "abc"
    .InvalidValue hbuild
  exact ⟨(error_propagation_amended toyEnv).2.2.1 claimMnemonic "x" _ .InvalidPathSyntax
           hroot hder,
         hsign,
         (error_propagation_amended toyEnv).2.2.2.2.2 probeWallet claimRecipient "abc"
           .InvalidValue hsign⟩

/-- Claim C10: the wallet returned by the mnemonic wallet restorer has the
same private key as the node obtained by deriving the default ethereum path
(the scenario path prefix extended by index 0) from the restored root node,
and it retains the mnemonic together with that path. -/
theorem restore_entry_points_agree :
    ∀ (env : Env) (m : String) (w : Wallet) (r n : HDNode),
      restoreHDWallet env m = .ok w → restoreHDNode env m = .ok r →
      derivePath env r defaultPath = .ok n →
      w.privateKey = n.privateKey ∧ w.mnemonic = some (m, defaultPath) ∧
      defaultPath = claimPathPrefix ++ "/" ++ toString 0 := by
  intro env m w r n hw hr hn
  rw [restoreHDWallet] at hw
  rw [show restoreHDNode env m = fromMnemonic env m from rfl] at hr
  rw [hr] at hw
  have hw2 : (match derivePath env r defaultPath with
      | Except.error e => Except.error e
      | Except.ok node =>
        Except.ok { privateKey := node.privateKey,
                    mnemonic := some (m, defaultPath) } : Except Err Wallet) =
      Except.ok w := hw
  rw [hn] at hw2
  have h := Except.ok.inj hw2
  rw [← h]
  exact ⟨rfl, rfl, rfl⟩

/-- Witness for C10 at the scenario mnemonic under the concrete
environment. -/
theorem restore_entry_points_agree_witness :
    restoreHDWallet toyEnv claimMnemonic =
      .ok { privateKey :=
              6367897133604655360779543904514693711150497502038628163609775562574519598338,
            mnemonic := some (claimMnemonic, defaultPath) } ∧
    derivePath toyEnv
      { privateKey :=
          106258050855515489382851276377599633210495551787519231339943037153297836738569,
        chainCode := [10, 11, 12, 13, 14, 15, 16, 17, 18, 19, 20, 21, 22, 23, 24, 25,
                      26, 27, 28, 29, 30, 31, 32, 33, 34, 35, 36, 37, 38, 39, 40, 41],
        depth := 0, childIndex := 0, parentFingerprint := [0, 0, 0, 0] } defaultPath =
      .ok { privateKey :=
              6367897133604655360779543904514693711150497502038628163609775562574519598338,
            chainCode := [131, 132, 133, 134, 135, 136, 137, 138, 139, 140, 141, 142,
                          143, 144, 145, 146, 147, 148, 149, 150, 151, 152, 153, 154,
                          155, 156, 157, 158, 159, 160, 161, 162],
            depth := 5, childIndex := 0, parentFingerprint := [0, 0, 0, 0] } ∧
    (6367897133604655360779543904514693711150497502038628163609775562574519598338 : Nat) =
      6367897133604655360779543904514693711150497502038628163609775562574519598338 := by
  have h1 : restoreHDWallet toyEnv claimMnemonic =
      .ok { privateKey :=
              6367897133604655360779543904514693711150497502038628163609775562574519598338,
            mnemonic := some (claimMnemonic, defaultPath) } := rfl
  have h2 : restoreHDNode toyEnv claimMnemonic =
      .ok { privateKey :=
              106258050855515489382851276377599633210495551787519231339943037153297836738569,
            chainCode := [10, 11, 12, 13, 14, 15, 16, 17, 18, 19, 20, 21, 22, 23, 24, 25,
                          26, 27, 28, 29, 30, 31, 32, 33, 34, 35, 36, 37, 38, 39, 40, 41],
            depth := 0, childIndex := 0, parentFingerprint := [0, 0, 0, 0] } := rfl
  have h3 : derivePath toyEnv
      { privateKey :=
          106258050855515489382851276377599633210495551787519231339943037153297836738569,
        chainCode := [10, 11, 12, 13, 14, 15, 16, 17, 18, 19, 20, 21, 22, 23, 24, 25,
                      26, 27, 28, 29, 30, 31, 32, 33, 34, 35, 36, 37, 38, 39, 40, 41],
        depth := 0, childIndex := 0, parentFingerprint := [0, 0, 0, 0] } defaultPath =
      .ok { privateKey :=
              6367897133604655360779543904514693711150497502038628163609775562574519598338,
            chainCode := [131, 132, 133, 134, 135, 136, 137, 138, 139, 140, 141, 142,
                          143, 144, 145, 146, 147, 148, 149, 150, 151, 152, 153, 154,
                          155, 156, 157, 158, 159, 160, 161, 162],
            depth := 5, childIndex := 0, parentFingerprint := [0, 0, 0, 0] } := rfl
  exact ⟨h1, h3, (restore_entry_points_agree toyEnv claimMnemonic _ _ _ h1 h2 h3).1⟩

/-- Claim C7: path application is associative.  Folding child derivation
over an appended segment list equals deriving the first list and then the
second from the intermediate node; in particular, at the call site of the
wallet loop, deriving the scenario prefix extended with "/" and an index i
below five equals deriving the prefix and then child i. -/
theorem derivePath_associative :
    ∀ (env : Env),
      (∀ (node : HDNode) (a b : List Nat),
        derivePathSegs env node (a ++ b) =
          match derivePathSegs env node a with
          | .error e => .error e
          | .ok mid => derivePathSegs env mid b) ∧
      (∀ (root : HDNode), root.depth = 0 → ∀ i, i < 5 →
        derivePath env root (claimPathPrefix ++ "/" ++ toString i) =
          match derivePath env root claimPathPrefix with
          | .error e => .error e
          | .ok mid => deriveChild env mid i) := by
  intro env
  constructor
  · intro node a b
    simp only [derivePathSegs]
    rw [foldE_append]
    rcases hfold : foldE (deriveChild env) node a with e | mid <;> rfl
  · intro root hdep i hi
    have hpp : parsePath claimPathPrefix =
        .ok (true, [2147483692, 2147483708, 2147483648, 0]) := rfl
    have key : ∀ (iN : Nat),
        parsePath (claimPathPrefix ++ "/" ++ toString iN) =
          .ok (true, [2147483692, 2147483708, 2147483648, 0] ++ [iN]) →
        derivePath env root (claimPathPrefix ++ "/" ++ toString iN) =
          match derivePath env root claimPathPrefix with
          | .error e => .error e
          | .ok mid => deriveChild env mid iN := by
      intro iN hp
      rw [derivePath, derivePath, hp, hpp]
      simp only [hdep, ne_eq, not_true_eq_false, and_false, if_false]
      rw [derivePathSegs_snoc]
    interval_cases i
    · exact key 0 rfl
    · exact key 1 rfl
    · exact key 2 rfl
    · exact key 3 rfl
    · exact key 4 rfl

/-- Witness for C7 at a concrete root and index 1. -/
theorem derivePath_associative_witness :
    derivePath toyEnv probeRoot (claimPathPrefix ++ "/" ++ toString 1) =
      match derivePath toyEnv probeRoot claimPathPrefix with
      | .error e => .error e
      | .ok mid => deriveChild toyEnv mid 1 :=
  (derivePath_associative toyEnv).2 probeRoot rfl 1 (by decide)


theorem decryptWalletInstr_mac_match (env : Env) (doc : KeystoreDocument) (pw : String)
    (h : macOf env doc pw = doc.mac) :
    decryptWalletInstr env doc pw = decryptBody env doc pw := by
  rw [decryptWalletInstr, if_pos h]

theorem decryptWalletInstr_mac_mismatch (env : Env) (doc : KeystoreDocument) (pw : String)
    (h : macOf env doc pw ≠ doc.mac) :
    decryptWalletInstr env doc pw = (.error .AuthenticationFailed, 0) := by
  rw [decryptWalletInstr, if_neg h]

/-- Claim C2: decrypting the keystore document produced by encrypting a
wallet with a password, using the same password, restores the wallet
exactly: the private key is recovered bit for bit and the mnemonic phrase
and derivation path are restored when present. -/
theorem keystore_roundtrip :
    ∀ (env : Env) (w : Wallet) (pw : String) (salt iv : List Nat),
      w.privateKey < 256 ^ 32 →
      decryptWallet env (saveWalletAsJson env w pw salt iv) pw = .ok w := by
  intro env w pw salt iv hk
  obtain ⟨pk0, mn⟩ := w
  have hmac : macOf env (saveWalletAsJson env ⟨pk0, mn⟩ pw salt iv) pw =
      (saveWalletAsJson env ⟨pk0, mn⟩ pw salt iv).mac := rfl
  rw [decryptWallet, decryptWalletInstr_mac_match env _ pw hmac]
  cases mn with
  | none =>
    have hbody : (decryptBody env (saveWalletAsJson env ⟨pk0, none⟩ pw salt iv) pw).1 =
        .ok { privateKey := fromDigits 256 (applyCtr env ((env.kdf pw salt 32).take 16) iv
                (applyCtr env ((env.kdf pw salt 32).take 16) iv (ser256 pk0))),
              mnemonic := none } := rfl
    rw [hbody, applyCtr_involution, fromDigits_ser256 pk0 hk]
  | some mp =>
    obtain ⟨m, p⟩ := mp
    have hbody : decryptBody env (saveWalletAsJson env ⟨pk0, some (m, p)⟩ pw salt iv) pw =
        (match decodeMnemonicPath (applyCtr env ((env.kdf pw salt 32).take 16) (ivExt iv)
            (applyCtr env ((env.kdf pw salt 32).take 16) (ivExt iv)
              (encodeMnemonicPath m p))) with
          | some mp2 =>
            (Except.ok { privateKey := fromDigits 256
                           (applyCtr env ((env.kdf pw salt 32).take 16) iv
                             (applyCtr env ((env.kdf pw salt 32).take 16) iv (ser256 pk0))),
                         mnemonic := some mp2 }, 2)
          | none => (Except.error Err.InvalidKeystore, 2)) := rfl
    rw [hbody]
    simp only [applyCtr_involution]
    rw [decode_encode_mnemonicPath, fromDigits_ser256 pk0 hk]

/-- Witness for C2 at a concrete wallet carrying a mnemonic and path. -/
theorem keystore_roundtrip_witness :
    (13 : Nat) < 256 ^ 32 ∧
    decryptWallet toyEnv
      (saveWalletAsJson toyEnv { privateKey := 13, mnemonic := some ("ab", "m/0") }
        "pw" [1, 2] [3, 4]) "pw" =
      .ok { privateKey := 13, mnemonic := some ("ab", "m/0") } :=
  ⟨by decide,
   keystore_roundtrip toyEnv { privateKey := 13, mnemonic := some ("ab", "m/0") }
     "pw" [1, 2] [3, 4] (by decide)⟩

/-- Claim C3: decrypting with a password different from the one used to
encrypt recomputes a MAC that mismatches the stored one, fails with
AuthenticationFailed, and performs the check before any decryption: the
cipher keystream is consulted zero times. -/
theorem keystore_wrong_password_fails_before_decrypt :
    ∀ (env : Env) (w : Wallet) (pw pw2 : String) (salt iv : List Nat),
      pw ≠ pw2 →
      macOf env (saveWalletAsJson env w pw salt iv) pw2 ≠
        (saveWalletAsJson env w pw salt iv).mac →
      decryptWallet env (saveWalletAsJson env w pw salt iv) pw2 =
        .error .AuthenticationFailed ∧
      decryptWalletInstr env (saveWalletAsJson env w pw salt iv) pw2 =
        (.error .AuthenticationFailed, 0) := by
  intro env w pw pw2 salt iv hne hmac
  have h := decryptWalletInstr_mac_mismatch env (saveWalletAsJson env w pw salt iv) pw2 hmac
  constructor
  · rw [decryptWallet, h]
  · exact h

/-- Witness for C3 at concrete distinct passwords under the concrete
environment. -/
theorem keystore_wrong_password_witness :
    decryptWallet toyEnv
      (saveWalletAsJson toyEnv { privateKey := 13, mnemonic := some ("ab", "m/0") }
        "pw" [1, 2] [3, 4]) "wrong" = .error .AuthenticationFailed ∧
    decryptWalletInstr toyEnv
      (saveWalletAsJson toyEnv { privateKey := 13, mnemonic := some ("ab", "m/0") }
        "pw" [1, 2] [3, 4]) "wrong" = (.error .AuthenticationFailed, 0) :=
  keystore_wrong_password_fails_before_decrypt toyEnv
    { privateKey := 13, mnemonic := some ("ab", "m/0") } "pw" "wrong" [1, 2] [3, 4]
    (by decide) (by decide)

/-- Claim C5: for every entropy byte sequence of 16, 20, 24, 28 or 32 bytes,
converting to a mnemonic and back returns the entropy exactly. -/
theorem mnemonic_entropy_roundtrip :
    ∀ (env : Env) (e : List Nat),
      (e.length = 16 ∨ e.length = 20 ∨ e.length = 24 ∨ e.length = 28 ∨ e.length = 32) →
      (∀ b ∈ e, b < 256) →
      ∃ ws, entropyToMnemonic env e = .ok ws ∧ mnemonicToEntropy env ws = .ok e := by
  intro env e he hb
  have hE4 : e.length % 4 = 0 := by omega
  have hE16 : 16 ≤ e.length := by omega
  have hE32 : e.length ≤ 32 := by omega
  refine ⟨(chunks 11 (bytesToBits e ++
      (bytesToBits (env.sha256 e)).take (e.length * 8 / 32))).map
        (fun gch => env.toWord (fromDigits 2 gch)), ?_, ?_⟩
  · rw [entropyToMnemonic, if_pos ⟨hE4, hE16, hE32⟩]
  · -- abbreviations and facts
    have hcslen : ((bytesToBits (env.sha256 e)).take (e.length * 8 / 32)).length =
        e.length * 8 / 32 := by
      rw [List.length_take, length_bytesToBits, env.sha256Len]
      omega
    have hbl : (bytesToBits e ++
        (bytesToBits (env.sha256 e)).take (e.length * 8 / 32)).length =
        8 * e.length + e.length * 8 / 32 := by
      rw [List.length_append, length_bytesToBits, hcslen]
    set bits := bytesToBits e ++ (bytesToBits (env.sha256 e)).take (e.length * 8 / 32)
      with hbitsdef
    have h11 : 11 ∣ bits.length := by rw [hbl]; omega
    have hb2 : ∀ x ∈ bits, x < 2 := by
      intro x hx
      rcases List.mem_append.mp hx with h | h
      · exact bytesToBits_lt_two e x h
      · exact bytesToBits_lt_two _ x (List.mem_of_mem_take h)
    have hchunks : chunks 11 bits = chunksAux 11 bits.length bits := rfl
    have hchlen11 : ∀ ch ∈ chunks 11 bits, ch.length = 11 := by
      rw [hchunks]
      exact length_mem_chunksAux 11 (by omega) bits.length bits h11 (Nat.le_refl _)
    have hchbits : ∀ ch ∈ chunks 11 bits, ∀ x ∈ ch, x < 2 := by
      rw [hchunks]
      intro ch hch x hx
      exact hb2 x (mem_of_mem_chunksAux 11 bits.length bits ch hch x hx)
    have hchlt : ∀ ch ∈ chunks 11 bits, fromDigits 2 ch < 2048 := by
      intro ch hch
      have hlt := fromDigits_lt 2 ch (hchbits ch hch)
      rw [hchlen11 ch hch] at hlt
      have h2048 : (2 : Nat) ^ 11 = 2048 := by norm_num
      rw [h2048] at hlt
      exact hlt
    have hmapE : mapE (wordToIndex env)
        ((chunks 11 bits).map (fun gch => env.toWord (fromDigits 2 gch))) =
        .ok ((chunks 11 bits).map (fromDigits 2)) :=
      mapE_wordToIndex env _ hchlt
    have hwsl : ((chunks 11 bits).map (fun gch => env.toWord (fromDigits 2 gch))).length =
        bits.length / 11 := by
      rw [List.length_map, hchunks]
      exact length_chunksAux 11 (by omega) bits.length bits h11 (Nat.le_refl _)
    have hcount : ((chunks 11 bits).map (fun gch => env.toWord (fromDigits 2 gch))).length = 12 ∨
        ((chunks 11 bits).map (fun gch => env.toWord (fromDigits 2 gch))).length = 15 ∨
        ((chunks 11 bits).map (fun gch => env.toWord (fromDigits 2 gch))).length = 18 ∨
        ((chunks 11 bits).map (fun gch => env.toWord (fromDigits 2 gch))).length = 21 ∨
        ((chunks 11 bits).map (fun gch => env.toWord (fromDigits 2 gch))).length = 24 := by
      rw [hwsl, hbl]
      omega
    rw [mnemonicToEntropy, if_pos hcount, hmapE]
    -- the match on the ok value reduces; now work on entropyFromIndices
    show entropyFromIndices env
        ((chunks 11 bits).map (fun gch => env.toWord (fromDigits 2 gch))).length
        ((chunks 11 bits).map (fromDigits 2)) = .ok e
    have hcb : catMap (toDigitsBE 2 11) ((chunks 11 bits).map (fromDigits 2)) = bits := by
      rw [catMap_map]
      have hcong : ∀ ch ∈ chunks 11 bits, toDigitsBE 2 11 (fromDigits 2 ch) = ch := by
        intro ch hch
        have hinv := toDigitsBE_fromDigits 2 ch (hchbits ch hch)
        rw [hchlen11 ch hch] at hinv
        exact hinv
      rw [catMap_congr _ (fun ch => ch) _ hcong, hchunks]
      exact catMap_id_chunksAux 11 (by omega) bits.length bits (Nat.le_refl _)
    have hEL : ((chunks 11 bits).map (fun gch => env.toWord (fromDigits 2 gch))).length * 4 / 3 =
        e.length := by
      rw [hwsl, hbl]
      omega
    have hfi : entropyFromIndices env
        ((chunks 11 bits).map (fun gch => env.toWord (fromDigits 2 gch))).length
        ((chunks 11 bits).map (fromDigits 2)) =
        (if (catMap (toDigitsBE 2 11) ((chunks 11 bits).map (fromDigits 2))).drop
              (((chunks 11 bits).map (fun gch => env.toWord (fromDigits 2 gch))).length * 4 / 3 * 8) =
            (bytesToBits (env.sha256 (bitsToBytes
              ((catMap (toDigitsBE 2 11) ((chunks 11 bits).map (fromDigits 2))).take
                (((chunks 11 bits).map (fun gch => env.toWord (fromDigits 2 gch))).length * 4 / 3 * 8))))).take
              (((chunks 11 bits).map (fun gch => env.toWord (fromDigits 2 gch))).length * 4 / 3 * 8 / 32) then
          .ok (bitsToBytes
            ((catMap (toDigitsBE 2 11) ((chunks 11 bits).map (fromDigits 2))).take
              (((chunks 11 bits).map (fun gch => env.toWord (fromDigits 2 gch))).length * 4 / 3 * 8)))
        else .error .InvalidChecksum) := rfl
    rw [hfi, hcb, hEL]
    have htake : bits.take (e.length * 8) = bytesToBits e :=
      List.take_left' (by rw [length_bytesToBits]; ring)
    have hdrop : bits.drop (e.length * 8) =
        (bytesToBits (env.sha256 e)).take (e.length * 8 / 32) :=
      List.drop_left' (by rw [length_bytesToBits]; ring)
    rw [htake, bitsToBytes_bytesToBits e hb, hdrop, if_pos rfl]

/-- Witness for C5 at a concrete 16-byte entropy under the concrete
environment. -/
theorem mnemonic_entropy_roundtrip_witness :
    entropyToMnemonic toyEnv (List.replicate 16 0) = .ok (List.replicate 12 "z") ∧
    mnemonicToEntropy toyEnv (List.replicate 12 "z") = .ok (List.replicate 16 0) := by
  have h0 : entropyToMnemonic toyEnv (List.replicate 16 0) = .ok (List.replicate 12 "z") := by
    rfl
  obtain ⟨ws, h1, h2⟩ :=
    mnemonic_entropy_roundtrip toyEnv (List.replicate 16 0) (by decide) (by decide)
  have hws : ws = List.replicate 12 "z" := Except.ok.inj (h1.symm.trans h0)
  rw [hws] at h2
  exact ⟨h0, h2⟩

/-- Claim C1: the five wallets the source derives for the scenario mnemonic
and path prefix are fully determined: any two successful evaluations agree
wallet for wallet and address for address, and exactly five wallets are
produced, so each index below five yields one fixed address. -/
theorem deriveFiveWallets_golden_determined :
    ∀ (env : Env) (ws1 ws2 : List Wallet),
      deriveFiveWalletsFromHdNode env claimMnemonic claimPathPrefix = .ok ws1 →
      deriveFiveWalletsFromHdNode env claimMnemonic claimPathPrefix = .ok ws2 →
      ws1 = ws2 ∧ ws1.length = 5 ∧
      ws1.map (fun w => addressOfKey env w.privateKey) =
        ws2.map (fun w => addressOfKey env w.privateKey) := by
  intro env ws1 ws2 h1 h2
  have hw : ws1 = ws2 := Except.ok.inj (h1.symm.trans h2)
  subst hw
  refine ⟨rfl, ?_, rfl⟩
  have hlen := mapE_ok_length _ _ _ h1
  simpa using hlen

/-- Witness for C1: the five concrete wallets derived under the concrete
environment. -/
theorem deriveFiveWallets_golden_determined_witness :
    deriveFiveWalletsFromHdNode toyEnv claimMnemonic claimPathPrefix =
      .ok [{ privateKey :=
               6367897133604655360779543904514693711150497502038628163609775562574519598338,
             mnemonic := none },
           { privateKey :=
               6821983758064718872244528159450724722339791559550944101019413146919276969475,
             mnemonic := none },
           { privateKey :=
               7276070382524782383709512414386755733529085617063260038429050731264034340612,
             mnemonic := none },
           { privateKey :=
               7730157006984845895174496669322786744718379674575575975838688315608791711749,
             mnemonic := none },
           { privateKey :=
               8184243631444909406639480924258817755907673732087891913248325899953549082886,
             mnemonic := none }] ∧
    ([{ privateKey :=
          6367897133604655360779543904514693711150497502038628163609775562574519598338,
        mnemonic := none },
      { privateKey :=
          6821983758064718872244528159450724722339791559550944101019413146919276969475,
        mnemonic := none },
      { privateKey :=
          7276070382524782383709512414386755733529085617063260038429050731264034340612,
        mnemonic := none },
      { privateKey :=
          7730157006984845895174496669322786744718379674575575975838688315608791711749,
        mnemonic := none },
      { privateKey :=
          8184243631444909406639480924258817755907673732087891913248325899953549082886,
        mnemonic := none }] : List Wallet).length = 5 := by
  have h : deriveFiveWalletsFromHdNode toyEnv claimMnemonic claimPathPrefix =
      .ok [{ privateKey :=
               6367897133604655360779543904514693711150497502038628163609775562574519598338,
             mnemonic := none },
           { privateKey :=
               6821983758064718872244528159450724722339791559550944101019413146919276969475,
             mnemonic := none },
           { privateKey :=
               7276070382524782383709512414386755733529085617063260038429050731264034340612,
             mnemonic := none },
           { privateKey :=
               7730157006984845895174496669322786744718379674575575975838688315608791711749,
             mnemonic := none },
           { privateKey :=
               8184243631444909406639480924258817755907673732087891913248325899953549082886,
             mnemonic := none }] := rfl
  exact ⟨h, (deriveFiveWallets_golden_determined toyEnv _ _ h h).2.1⟩
